/-
Verification of the QueryDoc indexing pipeline (scripts/chunker.py and the
cache / loading layer of web_demo.py) against its natural-language
specification.

Strings from the Python source are modelled as `List Char` (page text,
chunk content), except titles, file paths and status messages, which stay
`String`.  Python's `str.strip()` is modelled by `strip` below using
`Char.isWhitespace`.
-/
import Mathlib

namespace QueryDoc

/-- Whitespace test used by the model of Python's `str.strip()`. -/
def isWS (c : Char) : Bool := c.isWhitespace

/-- Python `str.strip()`: drop leading and trailing whitespace. -/
def strip (s : List Char) : List Char :=
  ((s.dropWhile isWS).reverse.dropWhile isWS).reverse

/-- Structural helper for `collapseWS`: the first argument is fuel (always at
least the list length at the call sites), making the recursion structural so
that the kernel can evaluate it on concrete inputs. -/
def collapseWSAux : Nat → List Char → List Char
  | _, [] => []
  | 0, _ :: _ => []
  | n + 1, c :: rest =>
    if isWS c then ' ' :: collapseWSAux n (rest.dropWhile isWS)
    else c :: collapseWSAux n rest

theorem collapseWSAux_congr :
    ∀ (n m : Nat) (s : List Char), s.length ≤ n → s.length ≤ m →
      collapseWSAux n s = collapseWSAux m s := by
  intro n
  induction n with
  | zero =>
    intro m s hn _
    have h : s = [] := List.eq_nil_of_length_eq_zero (Nat.le_zero.mp hn)
    subst h
    cases m <;> rfl
  | succ n ih =>
    intro m s hn hm
    cases s with
    | nil => cases m <;> rfl
    | cons c rest =>
      cases m with
      | zero => exact absurd hm (by simp)
      | succ m =>
        simp only [collapseWSAux]
        by_cases h : isWS c = true
        · rw [if_pos h, if_pos h]
          have hlen : (rest.dropWhile isWS).length ≤ rest.length :=
            (List.dropWhile_suffix _).sublist.length_le
          rw [ih m (rest.dropWhile isWS) (by simp at hn; omega) (by simp at hm; omega)]
        · rw [if_neg h, if_neg h]
          rw [ih m rest (by simp at hn; omega) (by simp at hm; omega)]

/-- Modelled from the spec: `src/utils/text_cleaning.py` (the module defining
`basic_clean_text`) is absent from `src/`.  The spec says the Segmenter must
"Clean the page text (collapse whitespace / normalize) before slicing", so we
model cleaning as collapsing every maximal whitespace run to a single space. -/
def collapseWS (s : List Char) : List Char := collapseWSAux s.length s

theorem collapseWS_nil : collapseWS [] = [] := rfl

theorem collapseWS_cons (c : Char) (rest : List Char) :
    collapseWS (c :: rest) =
      if isWS c then ' ' :: collapseWS (rest.dropWhile isWS)
      else c :: collapseWS rest := by
  show collapseWSAux (rest.length + 1) (c :: rest) = _
  rw [collapseWSAux]
  by_cases h : isWS c = true
  · rw [if_pos h, if_pos h, collapseWS,
      collapseWSAux_congr rest.length (rest.dropWhile isWS).length
        (rest.dropWhile isWS) ((List.dropWhile_suffix _).sublist.length_le) le_rfl]
  · rw [if_neg h, if_neg h, collapseWS]

/-- Modelled from the spec: cleaning = collapse whitespace runs, then trim the
ends (the spec's "collapse whitespace / normalize"). -/
def basic_clean_text (s : List Char) : List Char :=
  strip (collapseWS s)

/-- Line 10 of `chunker.py`: `CHUNK_SIZE = 500`. -/
def CHUNK_SIZE : Nat := 500

/-- One table-of-contents entry `(level, title, start_page)`
(`chunker.py`, `get_section_of_page` docstring). -/
structure TocEntry where
  level : Int
  title : String
  start_page : Nat
deriving DecidableEq, Repr

/-- The sentinel section title the code assigns before any ToC entry matches:
`current_section = "기타"` (`chunker.py` line 19; Korean for
"miscellaneous"/"uncategorized"). -/
def sentinelTitle : String := "기타"

/-- The loop body of `get_section_of_page`: `current` is the running
`current_section`; on the first entry with `page_num + 1 < start_p` the Python
loop `break`s and returns `current`. -/
def get_section_go (page_num : Nat) (current : String) : List TocEntry → String
  | [] => current
  | e :: rest =>
    if e.start_page ≤ page_num + 1 then get_section_go page_num e.title rest
    else current

/-- Function `get_section_of_page(page_num, toc)` of `chunker.py`: scan the ToC in order,
keep the title of each entry with `page_num + 1 >= start_page`, stop at the
first entry where this fails; start from the sentinel `"기타"`. -/
def get_section_of_page (page_num : Nat) (toc : List TocEntry) : String :=
  get_section_go page_num sentinelTitle toc

/-- Spec-side definition for claim C1 (from the spec's words, to be compared
with `get_section_of_page`): "the title of the last entry whose `start_page` ≤
page+1", the sentinel when no entry qualifies. -/
def lastEntryTitleSpec (page_num : Nat) (toc : List TocEntry) : String :=
  ((toc.filter (fun e => e.start_page ≤ page_num + 1)).map (·.title)).getLastD
    sentinelTitle

/-- ToC sorted by `start_page` (nondecreasing). -/
def TocSorted (toc : List TocEntry) : Prop :=
  toc.Pairwise (fun a b => a.start_page ≤ b.start_page)

theorem get_section_go_sorted (p : Nat) (toc : List TocEntry) (cur : String)
    (hs : TocSorted toc) :
    get_section_go p cur toc =
      ((toc.filter (fun e => e.start_page ≤ p + 1)).map (·.title)).getLastD cur := by
  induction toc generalizing cur with
  | nil => rfl
  | cons e rest ih =>
    rcases List.pairwise_cons.mp hs with ⟨he, hrest⟩
    by_cases h : e.start_page ≤ p + 1
    · rw [get_section_go, if_pos h, List.filter_cons_of_pos (by simpa using h),
        List.map_cons, List.getLastD_cons]
      exact ih e.title hrest
    · have hfilter : rest.filter (fun x => decide (x.start_page ≤ p + 1)) = [] := by
        apply List.filter_eq_nil_iff.mpr
        intro x hx
        simp only [decide_eq_true_eq]
        intro hc
        exact h (le_trans (he x hx) hc)
      rw [get_section_go, if_neg h, List.filter_cons_of_neg (by simpa using h)]
      rw [hfilter]
      rfl

/-- Structural helper for `chunkWindows` (fuel-based, so the kernel can
evaluate it on concrete inputs). -/
def chunkWindowsAux (csize : Nat) : Nat → List Char → List (List Char)
  | _, [] => []
  | 0, _ :: _ => []
  | n + 1, c :: t =>
    if csize = 0 then []
    else (c :: t).take csize :: chunkWindowsAux csize n ((c :: t).drop csize)

theorem chunkWindowsAux_congr (csize : Nat) :
    ∀ (n m : Nat) (s : List Char), s.length ≤ n → s.length ≤ m →
      chunkWindowsAux csize n s = chunkWindowsAux csize m s := by
  intro n
  induction n with
  | zero =>
    intro m s hn _
    have h : s = [] := List.eq_nil_of_length_eq_zero (Nat.le_zero.mp hn)
    subst h
    cases m <;> rfl
  | succ n ih =>
    intro m s hn hm
    cases s with
    | nil => cases m <;> rfl
    | cons c t =>
      cases m with
      | zero => exact absurd hm (by simp)
      | succ m =>
        simp only [chunkWindowsAux]
        by_cases h : csize = 0
        · rw [if_pos h, if_pos h]
        · rw [if_neg h, if_neg h]
          have h1 : 0 < csize := Nat.pos_of_ne_zero h
          have hd : ((c :: t).drop csize).length ≤ t.length := by
            rw [List.length_drop]
            simp only [List.length_cons]
            omega
          rw [ih m ((c :: t).drop csize) (by simp at hn; omega)
            (by simp at hm; omega)]

/-- The non-overlapping `chunk_size`-wide windows the `while` loop of
`chunk_text` walks over (`text[start:end]` for `start = 0, chunk_size, ...`).
The Python loop does not terminate when `chunk_size = 0`; that branch is
modelled as producing nothing and is unreachable in every claim (all assume a
positive chunk size). -/
def chunkWindows (csize : Nat) (s : List Char) : List (List Char) :=
  chunkWindowsAux csize s.length s

theorem chunkWindows_nil (csize : Nat) : chunkWindows csize [] = [] := rfl

theorem chunkWindows_cons (csize : Nat) (hc : csize ≠ 0) (s : List Char)
    (hs : s ≠ []) :
    chunkWindows csize s = s.take csize :: chunkWindows csize (s.drop csize) := by
  cases s with
  | nil => exact absurd rfl hs
  | cons c t =>
    show chunkWindowsAux csize (t.length + 1) (c :: t) = _
    rw [chunkWindowsAux, if_neg hc]
    congr 1
    have h1 : 0 < csize := Nat.pos_of_ne_zero hc
    refine chunkWindowsAux_congr csize t.length ((c :: t).drop csize).length
      ((c :: t).drop csize) ?_ le_rfl
    rw [List.length_drop]
    simp only [List.length_cons]
    omega

/-- Function `chunk_text(text, chunk_size)` of `chunker.py`: clean the text, slice it into
`chunk_size`-wide windows, strip each window, and keep the non-empty results in
order. -/
def chunk_text (text : List Char) (chunk_size : Nat) : List (List Char) :=
  (chunkWindows chunk_size (basic_clean_text text)).filterMap fun w =>
    let chunk_str := strip w
    if chunk_str = [] then none else some chunk_str

theorem chunkWindows_flatten (csize : Nat) (hc : csize ≠ 0) (s : List Char) :
    (chunkWindows csize s).flatten = s := by
  have key : ∀ n (s : List Char), s.length ≤ n → (chunkWindows csize s).flatten = s := by
    intro n
    induction n with
    | zero =>
      intro s hs
      have h : s = [] := List.eq_nil_of_length_eq_zero (Nat.le_zero.mp hs)
      subst h
      rw [chunkWindows_nil]
      rfl
    | succ n ih =>
      intro s hs
      by_cases h : s = []
      · subst h
        rw [chunkWindows_nil]
        rfl
      · rw [chunkWindows_cons csize hc s h, List.flatten_cons,
          ih (s.drop csize) ?_, List.take_append_drop]
        rw [List.length_drop]
        have h1 : 0 < csize := Nat.pos_of_ne_zero hc
        omega
  exact key s.length s le_rfl

/-- Every string splits as whitespace / `strip` of it / whitespace. -/
theorem strip_decomp (s : List Char) :
    ∃ a b : List Char,
      s = a ++ strip s ++ b ∧ (∀ c ∈ a, isWS c = true) ∧ (∀ c ∈ b, isWS c = true) := by
  refine ⟨s.takeWhile isWS, ((s.dropWhile isWS).reverse.takeWhile isWS).reverse,
    ?_, ?_, ?_⟩
  · conv_lhs => rw [← List.takeWhile_append_dropWhile isWS s]
    rw [List.append_assoc]
    congr 1
    conv_lhs => rw [← List.reverse_reverse (s.dropWhile isWS),
      ← List.takeWhile_append_dropWhile isWS (s.dropWhile isWS).reverse]
    rw [List.reverse_append]
    rfl
  · intro c hc
    exact List.mem_takeWhile_imp hc
  · intro c hc
    exact List.mem_takeWhile_imp (List.mem_reverse.mp hc)

theorem strip_length_le (s : List Char) : (strip s).length ≤ s.length := by
  obtain ⟨a, b, hdecomp, -, -⟩ := strip_decomp s
  have := congrArg List.length hdecomp
  simp only [List.length_append] at this
  omega

theorem strip_eq_nil_all_ws (s : List Char) (h : strip s = []) :
    ∀ c ∈ s, isWS c = true := by
  obtain ⟨a, b, hdecomp, ha, hb⟩ := strip_decomp s
  rw [h] at hdecomp
  intro c hc
  rw [hdecomp] at hc
  simp only [List.append_nil, List.mem_append] at hc
  rcases hc with hc | hc
  · exact ha c hc
  · exact hb c hc

/-- One chunk record emitted by `process_extracted_file` (`chunker.py`
lines 55-62): the dict with keys `file_path`, `page_idx`, `section_title`,
`chunk_index`, `content`. -/
structure ChunkRec where
  file_path : String
  page_idx : Nat
  section_title : String
  chunk_index : Nat
  content : List Char
deriving DecidableEq, Repr

/-- The input of `process_extracted_file`: `json_data` with `file_path`,
`toc`, `pages_text` (docstring of `process_extracted_file`). -/
structure ExtractedDoc where
  file_path : String
  toc : List TocEntry
  pages_text : List (List Char)
deriving DecidableEq, Repr

/-- The inner loop of `process_extracted_file` for one page: one record per
entry of `enumerate(chunk_text(text, CHUNK_SIZE))`. -/
def pageRecs (fp : String) (toc : List TocEntry) (page_idx : Nat)
    (text : List Char) : List ChunkRec :=
  (chunk_text text CHUNK_SIZE).enum.map fun ci =>
    { file_path := fp, page_idx := page_idx,
      section_title := get_section_of_page page_idx toc,
      chunk_index := ci.1, content := ci.2 }

/-- Function `process_extracted_file` of `chunker.py`: for every page (in order), chunk it
and emit one record per chunk. -/
def process_extracted_file (d : ExtractedDoc) : List ChunkRec :=
  d.pages_text.enum.flatMap fun pt => pageRecs d.file_path d.toc pt.1 pt.2

/-- C1: For every page index `p` and every table-of-contents sorted by
`start_page`, `get_section_of_page p toc` equals the title of the last toc
entry whose `start_page ≤ p+1`; every page before the first entry's
`start_page`, and every page of an empty table-of-contents, gets the sentinel
section title (the code's `"기타"`, its "uncategorized" marker). -/
theorem claim_C1 (p : Nat) (toc : List TocEntry) (hs : TocSorted toc) :
    get_section_of_page p toc = lastEntryTitleSpec p toc ∧
    get_section_of_page p ([] : List TocEntry) = sentinelTitle ∧
    (∀ e₀, toc.head? = some e₀ → p + 1 < e₀.start_page →
      get_section_of_page p toc = sentinelTitle) := by
  refine ⟨get_section_go_sorted p toc sentinelTitle hs, rfl, ?_⟩
  intro e₀ h0 hlt
  cases toc with
  | nil => rfl
  | cons e rest =>
    simp only [List.head?_cons, Option.some.injEq] at h0
    subst h0
    rw [get_section_of_page, get_section_go, if_neg (by omega)]

theorem claim_C1_witness :
    TocSorted [⟨1, "Intro", 1⟩, ⟨1, "Methods", 2⟩] ∧
    get_section_of_page 4 [⟨1, "Intro", 1⟩, ⟨1, "Methods", 2⟩] =
      lastEntryTitleSpec 4 [⟨1, "Intro", 1⟩, ⟨1, "Methods", 2⟩] :=
  have hs : TocSorted [⟨1, "Intro", 1⟩, ⟨1, "Methods", 2⟩] := by
    unfold TocSorted
    refine List.pairwise_cons.mpr ⟨?_, List.pairwise_singleton _ _⟩
    intro b hb
    simp only [List.mem_singleton] at hb
    subst hb
    decide
  ⟨hs, (claim_C1 4 [⟨1, "Intro", 1⟩, ⟨1, "Methods", 2⟩] hs).1⟩

/-- C2: For every text and `chunk_size > 0`, the windows `chunk_text` walks
over concatenate back to `basic_clean_text text` exactly; the returned chunks
are precisely the non-empty strips of those windows in order; each window
differs from its strip only by leading/trailing whitespace; and a window whose
strip is empty (a dropped window) is entirely whitespace.  Hence the
concatenation of the chunks reconstructs the cleaned text except for
whitespace removed by per-chunk trimming. -/
theorem claim_C2 (text : List Char) (chunk_size : Nat) (hc : 0 < chunk_size) :
    (chunkWindows chunk_size (basic_clean_text text)).flatten =
      basic_clean_text text ∧
    chunk_text text chunk_size =
      (chunkWindows chunk_size (basic_clean_text text)).filterMap
        (fun w => if strip w = [] then none else some (strip w)) ∧
    (∀ w ∈ chunkWindows chunk_size (basic_clean_text text),
      ∃ a b : List Char, w = a ++ strip w ++ b ∧
        (∀ c ∈ a, isWS c = true) ∧ (∀ c ∈ b, isWS c = true)) ∧
    (∀ w ∈ chunkWindows chunk_size (basic_clean_text text),
      strip w = [] → ∀ c ∈ w, isWS c = true) := by
  refine ⟨chunkWindows_flatten _ (Nat.pos_iff_ne_zero.mp hc) _, rfl,
    fun w _ => strip_decomp w, fun w _ => strip_eq_nil_all_ws w⟩

theorem claim_C2_witness :
    (0 : Nat) < 2 ∧
    (chunkWindows 2 (basic_clean_text ['a', ' ', 'b'])).flatten =
      basic_clean_text ['a', ' ', 'b'] :=
  ⟨by decide, (claim_C2 ['a', ' ', 'b'] 2 (by decide)).1⟩

theorem chunkWindows_zero (s : List Char) : chunkWindows 0 s = [] := by
  cases s with
  | nil => rfl
  | cons c t =>
    show chunkWindowsAux 0 (t.length + 1) (c :: t) = []
    rw [chunkWindowsAux, if_pos rfl]

theorem chunkWindows_length_le (csize : Nat) (s : List Char) :
    ∀ w ∈ chunkWindows csize s, w.length ≤ csize := by
  have key : ∀ n (s : List Char), s.length ≤ n →
      ∀ w ∈ chunkWindows csize s, w.length ≤ csize := by
    intro n
    induction n with
    | zero =>
      intro s hs w hw
      have h : s = [] := List.eq_nil_of_length_eq_zero (Nat.le_zero.mp hs)
      subst h
      rw [chunkWindows_nil] at hw
      exact absurd hw (List.not_mem_nil w)
    | succ n ih =>
      intro s hs w hw
      by_cases h : s = []
      · subst h
        rw [chunkWindows_nil] at hw
        exact absurd hw (List.not_mem_nil w)
      · by_cases hc : csize = 0
        · subst hc
          rw [chunkWindows_zero] at hw
          exact absurd hw (List.not_mem_nil w)
        · rw [chunkWindows_cons csize hc s h, List.mem_cons] at hw
          rcases hw with hw | hw
          · subst hw
            simp [Nat.min_le_left csize s.length]
          · refine ih (s.drop csize) ?_ w hw
            rw [List.length_drop]
            have h1 : 0 < csize := Nat.pos_of_ne_zero hc
            have h2 : 0 < s.length := List.length_pos.mpr h
            omega
  exact key s.length s le_rfl

theorem chunkWindows_dropLast_full (csize : Nat) (hc : csize ≠ 0) (s : List Char) :
    ∀ w ∈ (chunkWindows csize s).dropLast, w.length = csize := by
  have key : ∀ n (s : List Char), s.length ≤ n →
      ∀ w ∈ (chunkWindows csize s).dropLast, w.length = csize := by
    intro n
    induction n with
    | zero =>
      intro s hs w hw
      have h : s = [] := List.eq_nil_of_length_eq_zero (Nat.le_zero.mp hs)
      subst h
      rw [chunkWindows_nil] at hw
      exact absurd hw (List.not_mem_nil w)
    | succ n ih =>
      intro s hs w hw
      by_cases h : s = []
      · subst h
        rw [chunkWindows_nil] at hw
        exact absurd hw (List.not_mem_nil w)
      · rw [chunkWindows_cons csize hc s h] at hw
        by_cases hrest : chunkWindows csize (s.drop csize) = []
        · rw [hrest] at hw
          exact absurd hw (List.not_mem_nil w)
        · rw [List.dropLast_cons_of_ne_nil hrest, List.mem_cons] at hw
          have hdrop : s.drop csize ≠ [] := by
            intro hd
            rw [hd, chunkWindows_nil] at hrest
            exact hrest rfl
          have hlen : csize < s.length := by
            by_contra hle
            push_neg at hle
            exact hdrop (List.drop_eq_nil_of_le hle)
          rcases hw with hw | hw
          · subst hw
            simp [Nat.min_eq_left (le_of_lt hlen)]
          · refine ih (s.drop csize) ?_ w hw
            rw [List.length_drop]
            have h1 : 0 < csize := Nat.pos_of_ne_zero hc
            omega
  exact key s.length s le_rfl

theorem mem_chunk_text (text : List Char) (csize : Nat) (c : List Char)
    (hm : c ∈ chunk_text text csize) :
    ∃ w ∈ chunkWindows csize (basic_clean_text text), strip w = c ∧ c ≠ [] := by
  rw [chunk_text, List.mem_filterMap] at hm
  obtain ⟨w, hw, heq⟩ := hm
  by_cases hnil : strip w = []
  · simp only [hnil, if_pos rfl] at heq
    exact absurd heq (by simp)
  · simp only [if_neg hnil] at heq
    obtain rfl : strip w = c := by simpa using heq
    exact ⟨w, hw, rfl, hnil⟩

/-- C5: Every chunk returned by `chunk_text text 500` (the fixed `CHUNK_SIZE`
budget) has length at most 500, and every window except possibly the final one
is exactly 500 characters wide before trimming — so only the final chunk can be
short for a reason other than whitespace trimming. -/
theorem claim_C5 (text : List Char) :
    (∀ c ∈ chunk_text text CHUNK_SIZE, c.length ≤ CHUNK_SIZE) ∧
    (∀ w ∈ (chunkWindows CHUNK_SIZE (basic_clean_text text)).dropLast,
      w.length = CHUNK_SIZE) := by
  constructor
  · intro c hc
    obtain ⟨w, hw, hsw, -⟩ := mem_chunk_text text CHUNK_SIZE c hc
    calc c.length = (strip w).length := by rw [hsw]
      _ ≤ w.length := strip_length_le w
      _ ≤ CHUNK_SIZE := chunkWindows_length_le CHUNK_SIZE _ w hw
  · exact chunkWindows_dropLast_full CHUNK_SIZE (by decide) _

theorem claim_C5_witness :
    (['a', 'b'] ∈ chunk_text ['a', 'b'] CHUNK_SIZE) ∧
    (['a', 'b'] : List Char).length ≤ CHUNK_SIZE :=
  ⟨by decide, (claim_C5 ['a', 'b']).1 ['a', 'b'] (by decide)⟩

theorem page_idx_of_mem_pageRecs (fp : String) (toc : List TocEntry) (pi : Nat)
    (t : List Char) (r : ChunkRec) (h : r ∈ pageRecs fp toc pi t) :
    r.page_idx = pi := by
  rw [pageRecs, List.mem_map] at h
  obtain ⟨ci, -, rfl⟩ := h
  rfl

theorem filter_pageRecs (fp : String) (toc : List TocEntry) (pi p : Nat)
    (t : List Char) :
    (pageRecs fp toc pi t).filter (fun r => r.page_idx == p) =
      if pi = p then pageRecs fp toc pi t else [] := by
  by_cases h : pi = p
  · subst h
    rw [if_pos rfl]
    apply List.filter_eq_self.mpr
    intro r hr
    simp [page_idx_of_mem_pageRecs fp toc pi t r hr]
  · rw [if_neg h]
    apply List.filter_eq_nil_iff.mpr
    intro r hr
    simp [page_idx_of_mem_pageRecs fp toc pi t r hr, h]

theorem filter_flatMap_enumFrom (fp : String) (toc : List TocEntry) (p : Nat) :
    ∀ (pages : List (List Char)) (n : Nat),
      ((List.enumFrom n pages).flatMap fun pt =>
            pageRecs fp toc pt.1 pt.2).filter (fun r => r.page_idx == p) =
        if n ≤ p then ((pages.get? (p - n)).map (pageRecs fp toc p)).getD []
        else [] := by
  intro pages
  induction pages with
  | nil =>
    intro n
    by_cases h : n ≤ p <;> simp [h]
  | cons t rest ih =>
    intro n
    rw [List.enumFrom_cons, List.flatMap_cons, List.filter_append,
      filter_pageRecs, ih (n + 1)]
    by_cases h : n = p
    · subst h
      rw [if_pos rfl, if_pos le_rfl, if_neg (by omega)]
      simp
    · rw [if_neg h]
      by_cases h2 : n ≤ p
      · rw [if_pos h2, if_pos (by omega), List.nil_append]
        have h3 : p - n = (p - (n + 1)) + 1 := by omega
        rw [h3]
        rfl
      · rw [if_neg h2, if_neg (by omega)]
        rfl

theorem filter_process_page (d : ExtractedDoc) (p : Nat) :
    (process_extracted_file d).filter (fun r => r.page_idx == p) =
      ((d.pages_text.get? p).map (pageRecs d.file_path d.toc p)).getD [] := by
  have h := filter_flatMap_enumFrom d.file_path d.toc p d.pages_text 0
  rw [if_pos (Nat.zero_le p), Nat.sub_zero] at h
  exact h

theorem pageRecs_chunk_index (fp : String) (toc : List TocEntry) (pi : Nat)
    (t : List Char) :
    (pageRecs fp toc pi t).map (·.chunk_index) =
      List.range (pageRecs fp toc pi t).length := by
  rw [pageRecs, List.map_map]
  have hcomp : ((fun r : ChunkRec => r.chunk_index) ∘ fun ci : Nat × List Char =>
      ({ file_path := fp, page_idx := pi,
         section_title := get_section_of_page pi toc,
         chunk_index := ci.1, content := ci.2 } : ChunkRec)) = Prod.fst := by
    funext ci
    rfl
  rw [hcomp, List.enum_map_fst, List.length_map, List.enum_length]

theorem content_mem_of_mem_pageRecs (fp : String) (toc : List TocEntry)
    (pi : Nat) (t : List Char) (r : ChunkRec) (h : r ∈ pageRecs fp toc pi t) :
    r.content ∈ chunk_text t CHUNK_SIZE := by
  rw [pageRecs, List.mem_map] at h
  obtain ⟨ci, hci, rfl⟩ := h
  have h2 : (chunk_text t CHUNK_SIZE).get? ci.1 = some ci.2 := by
    have := List.mk_mem_enum_iff_getElem?.mp (show (ci.1, ci.2) ∈ _ from hci)
    rw [List.get?_eq_getElem?]
    exact this
  exact List.get?_mem h2

/-- C4: For every document and page, the `chunk_index` values of the records
emitted for that page are exactly `0, 1, ..., k-1` (a contiguous 0-based
sequence, numbered after empty windows are dropped inside `chunk_text`), and
every emitted record's content is non-empty. -/
theorem claim_C4 (d : ExtractedDoc) (p : Nat) :
    ((process_extracted_file d).filter (fun r => r.page_idx == p)).map
        (·.chunk_index) =
      List.range ((process_extracted_file d).filter
        (fun r => r.page_idx == p)).length ∧
    ∀ r ∈ process_extracted_file d, r.content ≠ [] := by
  constructor
  · rw [filter_process_page]
    cases hq : d.pages_text.get? p with
    | none => simp
    | some t =>
      simp only [Option.map_some', Option.getD_some]
      exact pageRecs_chunk_index d.file_path d.toc p t
  · intro r hr
    rw [process_extracted_file, List.mem_flatMap] at hr
    obtain ⟨pt, -, hpt⟩ := hr
    have hc := content_mem_of_mem_pageRecs d.file_path d.toc pt.1 pt.2 r hpt
    obtain ⟨w, -, -, hne⟩ := mem_chunk_text pt.2 CHUNK_SIZE r.content hc
    exact hne

theorem claim_C4_witness :
    (((process_extracted_file
          ⟨"f", [], [['a', 'b']]⟩).filter (fun r => r.page_idx == 0)).map
        (·.chunk_index) =
      List.range (((process_extracted_file
          ⟨"f", [], [['a', 'b']]⟩).filter (fun r => r.page_idx == 0))).length) ∧
    ({ file_path := "f", page_idx := 0, section_title := sentinelTitle,
       chunk_index := 0, content := ['a', 'b'] } : ChunkRec).content ≠ [] :=
  ⟨(claim_C4 ⟨"f", [], [['a', 'b']]⟩ 0).1,
    (claim_C4 ⟨"f", [], [['a', 'b']]⟩ 0).2 _ (by decide)⟩

theorem flatMap_filter_of_nil {α β : Type} (l : List α) (q : α → Bool)
    (f : α → List β) (h : ∀ x ∈ l, q x = false → f x = []) :
    l.flatMap f = (l.filter q).flatMap f := by
  induction l with
  | nil => rfl
  | cons a l ih =>
    rw [List.flatMap_cons, List.filter_cons]
    cases hq : q a with
    | true =>
      rw [if_pos rfl, List.flatMap_cons,
        ih (fun x hx => h x (List.mem_cons_of_mem a hx))]
    | false =>
      rw [if_neg (by simp), h a (List.mem_cons_self a l) hq, List.nil_append,
        ih (fun x hx => h x (List.mem_cons_of_mem a hx))]

/-- C9: A page whose text cleans to the empty string produces zero chunks
(`chunk_text` returns `[]`), `process_extracted_file` emits no record for that
page, and the whole output equals what the remaining pages alone produce — the
empty page is skipped without any error. -/
theorem claim_C9 (d : ExtractedDoc) (i : Nat) (t : List Char)
    (ht : d.pages_text.get? i = some t)
    (he : basic_clean_text t = []) :
    chunk_text t CHUNK_SIZE = [] ∧
    (process_extracted_file d).filter (fun r => r.page_idx == i) = [] ∧
    process_extracted_file d =
      (d.pages_text.enum.filter (fun pt => pt.1 != i)).flatMap
        (fun pt => pageRecs d.file_path d.toc pt.1 pt.2) := by
  have hchunk : chunk_text t CHUNK_SIZE = [] := by
    rw [chunk_text, he, chunkWindows_nil, List.filterMap_nil]
  have hpage : pageRecs d.file_path d.toc i t = [] := by
    rw [pageRecs, hchunk]
    rfl
  refine ⟨hchunk, ?_, ?_⟩
  · rw [filter_process_page, ht, Option.map_some', Option.getD_some]
    rw [pageRecs, hchunk]
    rfl
  · rw [process_extracted_file]
    apply flatMap_filter_of_nil
    intro pt hpt hq
    have hi : pt.1 = i := by
      simpa using hq
    have hget : d.pages_text.get? pt.1 = some pt.2 := by
      have := List.mk_mem_enum_iff_getElem?.mp
        (show (pt.1, pt.2) ∈ d.pages_text.enum from hpt)
      rw [List.get?_eq_getElem?]
      exact this
    rw [hi] at hget
    have ht2 : pt.2 = t := by
      rw [ht] at hget
      exact (Option.some.injEq _ _).mp hget.symm
    rw [hi, ht2]
    exact hpage

theorem claim_C9_witness :
    ((⟨"f", [], [[' ', ' '], ['a']]⟩ : ExtractedDoc).pages_text.get? 0 =
        some [' ', ' ']) ∧
    chunk_text [' ', ' '] CHUNK_SIZE = [] ∧
    (process_extracted_file ⟨"f", [], [[' ', ' '], ['a']]⟩).filter
        (fun r => r.page_idx == 0) = [] :=
  have h := claim_C9 ⟨"f", [], [[' ', ' '], ['a']]⟩ 0 [' ', ' ']
    (by decide) (by decide)
  ⟨by decide, h.1, h.2.1⟩

theorem le_fst_of_mem_enumFrom {α : Type} :
    ∀ (l : List α) (n : Nat) (x : Nat × α), x ∈ List.enumFrom n l → n ≤ x.1 := by
  intro l
  induction l with
  | nil =>
    intro n x h
    exact absurd h (List.not_mem_nil x)
  | cons a l ih =>
    intro n x h
    rw [List.enumFrom_cons, List.mem_cons] at h
    rcases h with rfl | h
    · exact le_rfl
    · exact Nat.le_of_succ_le (ih (n + 1) x h)

theorem enumFrom_pairwise_fst {α : Type} (n : Nat) (l : List α) :
    (List.enumFrom n l).Pairwise (fun a b => a.1 < b.1) := by
  induction l generalizing n with
  | nil => exact List.Pairwise.nil
  | cons a l ih =>
    rw [List.enumFrom_cons]
    refine List.Pairwise.cons ?_ (ih (n + 1))
    intro x hx
    exact Nat.lt_of_succ_le (le_fst_of_mem_enumFrom l (n + 1) x hx)

/-- C10: The records emitted by `process_extracted_file` are pairwise ordered
by nondecreasing `page_idx` and, within a page, strictly increasing
`chunk_index`; every record carries the document's `file_path` and the section
title `get_section_of_page` assigns to its own page. -/
theorem claim_C10 (d : ExtractedDoc) :
    (process_extracted_file d).Pairwise
      (fun r s => r.page_idx < s.page_idx ∨
        (r.page_idx = s.page_idx ∧ r.chunk_index < s.chunk_index)) ∧
    ∀ r ∈ process_extracted_file d,
      r.file_path = d.file_path ∧
      r.section_title = get_section_of_page r.page_idx d.toc := by
  constructor
  · rw [process_extracted_file, List.flatMap_def, List.pairwise_flatten]
    constructor
    · intro recs hrecs
      rw [List.mem_map] at hrecs
      obtain ⟨pt, -, rfl⟩ := hrecs
      rw [pageRecs, List.pairwise_map]
      refine List.Pairwise.imp ?_ (enumFrom_pairwise_fst 0 _)
      intro a b hab
      exact Or.inr ⟨rfl, hab⟩
    · rw [List.pairwise_map]
      refine List.Pairwise.imp ?_ (enumFrom_pairwise_fst 0 d.pages_text)
      intro pt₁ pt₂ hlt x hx y hy
      rw [page_idx_of_mem_pageRecs _ _ _ _ x hx,
        page_idx_of_mem_pageRecs _ _ _ _ y hy]
      exact Or.inl hlt
  · intro r hr
    rw [process_extracted_file, List.mem_flatMap] at hr
    obtain ⟨pt, -, hpt⟩ := hr
    rw [pageRecs, List.mem_map] at hpt
    obtain ⟨ci, -, rfl⟩ := hpt
    exact ⟨rfl, rfl⟩

theorem claim_C10_witness :
    (process_extracted_file ⟨"f", [], [['a'], ['b']]⟩).Pairwise
      (fun r s => r.page_idx < s.page_idx ∨
        (r.page_idx = s.page_idx ∧ r.chunk_index < s.chunk_index)) ∧
    ({ file_path := "f", page_idx := 0, section_title := sentinelTitle,
       chunk_index := 0, content := ['a'] } : ChunkRec).file_path = "f" :=
  ⟨(claim_C10 ⟨"f", [], [['a'], ['b']]⟩).1,
    ((claim_C10 ⟨"f", [], [['a'], ['b']]⟩).2 _ (by decide)).1⟩

theorem chunkWindows_of_le (csize : Nat) (hc : csize ≠ 0) (s : List Char)
    (h0 : s ≠ []) (hle : s.length ≤ csize) : chunkWindows csize s = [s] := by
  rw [chunkWindows_cons csize hc s h0, List.take_of_length_le hle,
    List.drop_eq_nil_of_le hle, chunkWindows_nil]

theorem dropWhile_of_no_ws (s : List Char) (h : ∀ c ∈ s, isWS c = false) :
    s.dropWhile isWS = s := by
  cases s with
  | nil => rfl
  | cons c t =>
    rw [List.dropWhile_cons, if_neg]
    simp [h c (List.mem_cons_self c t)]

theorem strip_of_no_ws (s : List Char) (h : ∀ c ∈ s, isWS c = false) :
    strip s = s := by
  rw [strip, dropWhile_of_no_ws s h,
    dropWhile_of_no_ws s.reverse (fun c hc => h c (List.mem_reverse.mp hc)),
    List.reverse_reverse]

theorem collapseWS_of_no_ws (s : List Char) (h : ∀ c ∈ s, isWS c = false) :
    collapseWS s = s := by
  induction s with
  | nil => rfl
  | cons c t ih =>
    rw [collapseWS_cons, if_neg (by simp [h c (List.mem_cons_self c t)]),
      ih (fun x hx => h x (List.mem_cons_of_mem c hx))]

theorem basic_clean_text_of_no_ws (s : List Char) (h : ∀ c ∈ s, isWS c = false) :
    basic_clean_text s = s := by
  rw [basic_clean_text, collapseWS_of_no_ws s h, strip_of_no_ws s h]

theorem chunkWindows_subset (csize : Nat) (s : List Char) :
    ∀ w ∈ chunkWindows csize s, ∀ c ∈ w, c ∈ s := by
  have key : ∀ n (s : List Char), s.length ≤ n →
      ∀ w ∈ chunkWindows csize s, ∀ c ∈ w, c ∈ s := by
    intro n
    induction n with
    | zero =>
      intro s hs w hw
      have h : s = [] := List.eq_nil_of_length_eq_zero (Nat.le_zero.mp hs)
      subst h
      rw [chunkWindows_nil] at hw
      exact absurd hw (List.not_mem_nil w)
    | succ n ih =>
      intro s hs w hw
      by_cases h : s = []
      · subst h
        rw [chunkWindows_nil] at hw
        exact absurd hw (List.not_mem_nil w)
      · by_cases hc : csize = 0
        · subst hc
          rw [chunkWindows_zero] at hw
          exact absurd hw (List.not_mem_nil w)
        · rw [chunkWindows_cons csize hc s h, List.mem_cons] at hw
          rcases hw with hw | hw
          · subst hw
            exact fun c hc2 => List.take_subset csize s hc2
          · intro c hc2
            refine List.drop_subset csize s (ih (s.drop csize) ?_ w hw c hc2)
            rw [List.length_drop]
            have h1 : 0 < csize := Nat.pos_of_ne_zero hc
            have h2 : 0 < s.length := List.length_pos.mpr h
            omega
  exact key s.length s le_rfl

theorem process_two_pages (fp : String) (toc : List TocEntry)
    (p0 p1 : List Char) :
    process_extracted_file ⟨fp, toc, [p0, p1]⟩ =
      pageRecs fp toc 0 p0 ++ pageRecs fp toc 1 p1 := by
  show pageRecs fp toc 0 p0 ++ (pageRecs fp toc 1 p1 ++ []) = _
  rw [List.append_nil]

/-- C3: For the document with ToC `[(1,"Intro",1),(1,"Methods",2)]`, a page-0
text whose cleaned form has 1200 characters and no whitespace at the window
edges (every 500-wide window is already stripped), and a page-1 text whose
cleaned form has 300 such characters, `process_extracted_file` emits exactly 4
records: page 0 chunks 0,1,2 of lengths 500/500/200 tagged "Intro", and page 1
chunk 0 of length 300 tagged "Methods". -/
theorem claim_C3 (fp : String) (p0 p1 : List Char)
    (h0 : (basic_clean_text p0).length = 1200)
    (h0s : ∀ w ∈ chunkWindows CHUNK_SIZE (basic_clean_text p0), strip w = w)
    (h1 : (basic_clean_text p1).length = 300)
    (h1s : ∀ w ∈ chunkWindows CHUNK_SIZE (basic_clean_text p1), strip w = w) :
    (process_extracted_file
        ⟨fp, [⟨1, "Intro", 1⟩, ⟨1, "Methods", 2⟩], [p0, p1]⟩).map
        (fun r => (r.page_idx, r.section_title, r.chunk_index,
          r.content.length)) =
      [(0, "Intro", 0, 500), (0, "Intro", 1, 500), (0, "Intro", 2, 200),
        (1, "Methods", 0, 300)] := by
  have hcs : CHUNK_SIZE ≠ 0 := by decide
  -- page 0 windows
  have hne0 : basic_clean_text p0 ≠ [] := by
    intro h
    rw [h] at h0
    simp at h0
  have hd1 : ((basic_clean_text p0).drop CHUNK_SIZE).length = 700 := by
    rw [List.length_drop, h0]
    rfl
  have hne1 : (basic_clean_text p0).drop CHUNK_SIZE ≠ [] := by
    intro h
    rw [h] at hd1
    simp at hd1
  have hd2 : (((basic_clean_text p0).drop CHUNK_SIZE).drop CHUNK_SIZE).length
      = 200 := by
    rw [List.length_drop, hd1]
    rfl
  have hne2 : ((basic_clean_text p0).drop CHUNK_SIZE).drop CHUNK_SIZE ≠ [] := by
    intro h
    rw [h] at hd2
    simp at hd2
  have hwin0 : chunkWindows CHUNK_SIZE (basic_clean_text p0) =
      [(basic_clean_text p0).take CHUNK_SIZE,
        ((basic_clean_text p0).drop CHUNK_SIZE).take CHUNK_SIZE,
        ((basic_clean_text p0).drop CHUNK_SIZE).drop CHUNK_SIZE] := by
    rw [chunkWindows_cons CHUNK_SIZE hcs _ hne0,
      chunkWindows_cons CHUNK_SIZE hcs _ hne1,
      chunkWindows_of_le CHUNK_SIZE hcs _ hne2 (by rw [hd2]; decide)]
  have hl00 : ((basic_clean_text p0).take CHUNK_SIZE).length = 500 := by
    rw [List.length_take, h0]
    rfl
  have hl01 : (((basic_clean_text p0).drop CHUNK_SIZE).take CHUNK_SIZE).length
      = 500 := by
    rw [List.length_take, hd1]
    rfl
  have hmem0 : (basic_clean_text p0).take CHUNK_SIZE ∈
      chunkWindows CHUNK_SIZE (basic_clean_text p0) := by
    rw [hwin0]
    exact List.mem_cons_self _ _
  have hmem1 : ((basic_clean_text p0).drop CHUNK_SIZE).take CHUNK_SIZE ∈
      chunkWindows CHUNK_SIZE (basic_clean_text p0) := by
    rw [hwin0]
    exact List.mem_cons_of_mem _ (List.mem_cons_self _ _)
  have hmem2 : ((basic_clean_text p0).drop CHUNK_SIZE).drop CHUNK_SIZE ∈
      chunkWindows CHUNK_SIZE (basic_clean_text p0) := by
    rw [hwin0]
    exact List.mem_cons_of_mem _ (List.mem_cons_of_mem _ (List.mem_cons_self _ _))
  have hchunk0 : chunk_text p0 CHUNK_SIZE =
      [(basic_clean_text p0).take CHUNK_SIZE,
        ((basic_clean_text p0).drop CHUNK_SIZE).take CHUNK_SIZE,
        ((basic_clean_text p0).drop CHUNK_SIZE).drop CHUNK_SIZE] := by
    rw [chunk_text, hwin0]
    simp only [List.filterMap_cons, List.filterMap_nil]
    rw [h0s _ hmem0, h0s _ hmem1, h0s _ hmem2]
    rw [if_neg (fun h => by rw [h] at hl00; simp at hl00),
      if_neg (fun h => by rw [h] at hl01; simp at hl01),
      if_neg hne2]
  -- page 1 windows
  have hne3 : basic_clean_text p1 ≠ [] := by
    intro h
    rw [h] at h1
    simp at h1
  have hwin1 : chunkWindows CHUNK_SIZE (basic_clean_text p1) =
      [basic_clean_text p1] :=
    chunkWindows_of_le CHUNK_SIZE hcs _ hne3 (by rw [h1]; decide)
  have hmem3 : basic_clean_text p1 ∈ chunkWindows CHUNK_SIZE (basic_clean_text p1) := by
    rw [hwin1]
    exact List.mem_cons_self _ _
  have hchunk1 : chunk_text p1 CHUNK_SIZE = [basic_clean_text p1] := by
    rw [chunk_text, hwin1]
    simp only [List.filterMap_cons, List.filterMap_nil]
    rw [h1s _ hmem3, if_neg hne3]
  -- assemble
  have hsec0 : get_section_of_page 0 [⟨1, "Intro", 1⟩, ⟨1, "Methods", 2⟩]
      = "Intro" := rfl
  have hsec1 : get_section_of_page 1 [⟨1, "Intro", 1⟩, ⟨1, "Methods", 2⟩]
      = "Methods" := rfl
  rw [process_two_pages, List.map_append, pageRecs, pageRecs, hchunk0, hchunk1]
  simp only [List.enum, List.enumFrom, List.map_cons, List.map_nil,
    List.cons_append, List.nil_append, hsec0, hsec1, hl00, hl01, hd2, h1]

theorem claim_C3_witness :
    (basic_clean_text (List.replicate 1200 'a')).length = 1200 ∧
    (process_extracted_file
        ⟨"doc.pdf", [⟨1, "Intro", 1⟩, ⟨1, "Methods", 2⟩],
          [List.replicate 1200 'a', List.replicate 300 'b']⟩).map
        (fun r => (r.page_idx, r.section_title, r.chunk_index,
          r.content.length)) =
      [(0, "Intro", 0, 500), (0, "Intro", 1, 500), (0, "Intro", 2, 200),
        (1, "Methods", 0, 300)] := by
  have hnws0 : ∀ c ∈ List.replicate 1200 'a', isWS c = false := by
    intro c hc
    rw [List.eq_of_mem_replicate hc]
    decide
  have hnws1 : ∀ c ∈ List.replicate 300 'b', isWS c = false := by
    intro c hc
    rw [List.eq_of_mem_replicate hc]
    decide
  have hcl0 : basic_clean_text (List.replicate 1200 'a') =
      List.replicate 1200 'a' := basic_clean_text_of_no_ws _ hnws0
  have hcl1 : basic_clean_text (List.replicate 300 'b') =
      List.replicate 300 'b' := basic_clean_text_of_no_ws _ hnws1
  have h0 : (basic_clean_text (List.replicate 1200 'a')).length = 1200 := by
    rw [hcl0, List.length_replicate]
  have h1 : (basic_clean_text (List.replicate 300 'b')).length = 300 := by
    rw [hcl1, List.length_replicate]
  refine ⟨h0, claim_C3 "doc.pdf" _ _ h0 ?_ h1 ?_⟩
  · intro w hw
    refine strip_of_no_ws w (fun c hc => ?_)
    have := chunkWindows_subset CHUNK_SIZE _ w hw c hc
    rw [hcl0] at this
    rw [List.eq_of_mem_replicate this]
    decide
  · intro w hw
    refine strip_of_no_ws w (fun c hc => ?_)
    have := chunkWindows_subset CHUNK_SIZE _ w hw c hc
    rw [hcl1] at this
    rw [List.eq_of_mem_replicate this]
    decide

/-
The cache / loading layer of `web_demo.py`.  The on-disk cache of one document
is a pair of artifacts (`{basename}_sections.json`, `{basename}_index.pkl`);
each is modelled as absent, present-but-unreadable (corrupt), or good with a
payload.  The extraction pipeline collaborators missing from `src/`
(`scripts/pdf_extractor.py`, `scripts/build_index.py`,
`scripts/section_rep_builder.py`) are modelled as injected inputs: extraction
as an `ExtractOutcome` value (its result, or the fact that it exceeded the
timeout), and `build_chunk_index` / `build_section_reps` as function
parameters, as the spec prescribes for capability collaborators.
-/

/-- State of one persisted artifact on disk. -/
inductive FileState (α : Type) where
  | absent
  | corrupt
  | good (a : α)
deriving DecidableEq, Repr

/-- Returns `true` when the file exists and loads successfully. -/
def FileState.isGood {α : Type} : FileState α → Bool
  | .good _ => true
  | _ => false

/-- The on-disk cache of one document: the sections artifact and the
chunk-index artifact (`_cache_paths` in `web_demo.py`). -/
structure DiskCache (σ χ : Type) where
  sec : FileState σ
  idx : FileState χ
deriving DecidableEq, Repr

/-- Function `_save_cache` of `web_demo.py`: write the sections file and the chunk-index
file; after it runs both artifacts are good with the given payloads. -/
def saveCache {σ χ : Type} (sections : σ) (chunk_index : χ) : DiskCache σ χ :=
  ⟨FileState.good sections, FileState.good chunk_index⟩

/-- Function `_load_cache` of `web_demo.py`: if both files exist and both load
successfully, return both payloads; on any missing or corrupt file return
`(None, None)` (the Python `except Exception: pass` path) — never an error. -/
def loadCache {σ χ : Type} (cache : DiskCache σ χ) : Option σ × Option χ :=
  match cache.sec, cache.idx with
  | .good s, .good c => (some s, some c)
  | _, _ => (none, none)

/-- Result of running `pdf_extractor.extract_pdf_content` under the
`concurrent.futures` timeout guard of `process_pdf`. -/
inductive ExtractOutcome (ε : Type) where
  | ok (extracted : ε)
  | timeout

/-- Modelled from the spec: the record produced by the absent
`scripts/pdf_extractor.py` — a file identifier, a table-of-contents, ordered
page texts (the spec's "Extraction input"), plus the raw `sections` list that
`web_demo.py` passes to `build_section_reps` (kept abstract). -/
structure Extracted (ε : Type) where
  file_path : String
  toc : List TocEntry
  pages_text : List (List Char)
  sections : ε

/-- Function `process_pdf` of `web_demo.py`: on timeout raise the distinct
`RuntimeError("PDF extraction timed out (over 2 minutes).")` without touching
the cache; otherwise chunk, build the chunk index and section reps (injected
collaborators), save both cache files, and return the pair.  State passing:
the second component is the document's on-disk cache after the call. -/
def process_pdf {ε σ χ : Type} (extract : ExtractOutcome (Extracted ε))
    (build_chunk_index : List ChunkRec → χ) (build_section_reps : ε → χ → σ)
    (cache : DiskCache σ χ) : Except String (σ × χ) × DiskCache σ χ :=
  match extract with
  | .timeout => (.error "PDF extraction timed out (over 2 minutes).", cache)
  | .ok ex =>
    let chunks := process_extracted_file ⟨ex.file_path, ex.toc, ex.pages_text⟩
    let chunk_index := build_chunk_index chunks
    let sections := build_section_reps ex.sections chunk_index
    (.ok (sections, chunk_index), saveCache sections chunk_index)

/-- Function `load_existing_pdf` of `web_demo.py`: guard on login / selection / file
existence, try the cache, and on a cache miss rebuild via `process_pdf`
(catching its `RuntimeError` as a status message). -/
def load_existing_pdf {ε σ χ : Type} (username selected_name : String)
    (pdf_exists : Bool) (extract : ExtractOutcome (Extracted ε))
    (build_chunk_index : List ChunkRec → χ) (build_section_reps : ε → χ → σ)
    (cache : DiskCache σ χ) :
    (Option σ × Option χ × String) × DiskCache σ χ :=
  if username = "" then ((none, none, "Please log in first."), cache)
  else if selected_name = "" then
    ((none, none, "No previous PDF selected."), cache)
  else if pdf_exists = false then ((none, none, "File not found."), cache)
  else
    match loadCache cache with
    | (some sections, some chunk_index) =>
      ((some sections, some chunk_index,
        "Loaded cached data for " ++ selected_name), cache)
    | _ =>
      match process_pdf extract build_chunk_index build_section_reps cache with
      | (.ok (sections, chunk_index), cache2) =>
        ((some sections, some chunk_index, "Processed " ++ selected_name),
          cache2)
      | (.error e, cache2) => ((none, none, e), cache2)

/-- A Section record as stored in a sections cache file: an abstract payload
plus the optional `file_name` key that `load_all_cached_pdfs` adds to a
copy of the record. -/
structure CSec (β : Type) where
  data : β
  file_name : Option String
deriving DecidableEq, Repr

/-- Statement `sec_copy = sec.copy(); sec_copy["file_name"] = pdf_basename` in
`load_all_cached_pdfs`. -/
def tagSection {β : Type} (file_name : String) (s : CSec β) : CSec β :=
  { s with file_name := some file_name }

/-- The accumulation loop of `load_all_cached_pdfs`: walk the uploads in
order; for each, load its cache; skip it when the cache is missing; otherwise
append its tagged sections and its chunk index. -/
def gatherCaches {β γ : Type} (uploads : List String) (bn : String → String)
    (store : String → DiskCache (List (CSec β)) (List γ)) :
    List (CSec β) × List γ :=
  uploads.foldl
    (fun acc p =>
      match loadCache (store (bn p)) with
      | (some sections, some chunk_index) =>
        (acc.1 ++ sections.map (tagSection (bn p)), acc.2 ++ chunk_index)
      | _ => acc)
    ([], [])

/-- Function `load_all_cached_pdfs` of `web_demo.py`: `bn` models
`os.path.splitext(os.path.basename ·)[0]` and `store` maps a basename to that
document's on-disk cache. -/
def load_all_cached_pdfs {β γ : Type} (username : String)
    (uploads : List String) (bn : String → String)
    (store : String → DiskCache (List (CSec β)) (List γ)) :
    Option (List (CSec β)) × Option (List γ) × String :=
  if username = "" then (none, none, "Please log in first.")
  else if uploads = [] then (none, none, "No cached PDFs were found.")
  else if (gatherCaches uploads bn store).1.isEmpty then
    (none, none, "No cached data found. Process PDFs first.")
  else
    (some (gatherCaches uploads bn store).1,
      some (gatherCaches uploads bn store).2,
      "Loaded cached data for " ++
        toString (gatherCaches uploads bn store).1.length ++
        " sections across " ++ toString uploads.length ++ " PDFs")

/-- C6: When extraction times out, `process_pdf` returns the distinct
recoverable timeout error (not a generic failure, not a silent success) and
the on-disk cache is returned unchanged: neither the sections file nor the
chunk-index file is written. -/
theorem claim_C6 {ε σ χ : Type} (build_chunk_index : List ChunkRec → χ)
    (build_section_reps : ε → χ → σ) (cache : DiskCache σ χ) :
    process_pdf (ExtractOutcome.timeout : ExtractOutcome (Extracted ε))
        build_chunk_index build_section_reps cache =
      (Except.error "PDF extraction timed out (over 2 minutes).", cache) :=
  rfl

/-- C7: If either cache artifact is missing or fails to load, `loadCache`
returns `(None, None)` instead of raising, and `load_existing_pdf` then
rebuilds the whole index via `process_pdf` (surfacing its error only as a
status message) — a corrupt persisted index is a cache miss, never a hard
error. -/
theorem claim_C7 {ε σ χ : Type} (username selected_name : String)
    (hu : username ≠ "") (hn : selected_name ≠ "")
    (extract : ExtractOutcome (Extracted ε))
    (build_chunk_index : List ChunkRec → χ) (build_section_reps : ε → χ → σ)
    (cache : DiskCache σ χ)
    (hbad : cache.sec.isGood = false ∨ cache.idx.isGood = false) :
    loadCache cache = (none, none) ∧
    load_existing_pdf username selected_name true extract build_chunk_index
        build_section_reps cache =
      (match process_pdf extract build_chunk_index build_section_reps cache with
        | (.ok (sections, chunk_index), cache2) =>
          ((some sections, some chunk_index, "Processed " ++ selected_name),
            cache2)
        | (.error e, cache2) => ((none, none, e), cache2)) := by
  obtain ⟨sec, idx⟩ := cache
  have hload : loadCache (⟨sec, idx⟩ : DiskCache σ χ) = (none, none) := by
    cases sec <;> cases idx <;>
      simp_all [loadCache, FileState.isGood]
  refine ⟨hload, ?_⟩
  rw [load_existing_pdf, if_neg hu, if_neg hn, if_neg (by simp), hload]

theorem claim_C7_witness :
    loadCache (⟨FileState.absent, FileState.absent⟩ : DiskCache Unit Unit) =
      (none, none) ∧
    load_existing_pdf "u" "doc.pdf" true
        (ExtractOutcome.timeout : ExtractOutcome (Extracted Unit))
        (fun _ => ()) (fun _ _ => ())
        (⟨FileState.absent, FileState.absent⟩ : DiskCache Unit Unit) =
      ((none, none, "PDF extraction timed out (over 2 minutes)."),
        ⟨FileState.absent, FileState.absent⟩) := by
  have h := claim_C7 "u" "doc.pdf" (by decide) (by decide)
    (ExtractOutcome.timeout : ExtractOutcome (Extracted Unit))
    (fun _ => ()) (fun _ _ => ())
    (⟨FileState.absent, FileState.absent⟩ : DiskCache Unit Unit)
    (Or.inl rfl)
  exact ⟨h.1, by rw [h.2]; rfl⟩

theorem foldl_append_pair {α β γ : Type} (f : α → List β) (g : α → List γ) :
    ∀ (l : List α) (a : List β) (b : List γ),
      l.foldl (fun acc p => (acc.1 ++ f p, acc.2 ++ g p)) (a, b) =
        (a ++ l.flatMap f, b ++ l.flatMap g) := by
  intro l
  induction l with
  | nil =>
    intro a b
    simp
  | cons x l ih =>
    intro a b
    rw [List.foldl_cons, ih, List.flatMap_cons, List.flatMap_cons]
    simp [List.append_assoc]

theorem gatherCaches_eq {β γ : Type} (uploads : List String)
    (bn : String → String)
    (store : String → DiskCache (List (CSec β)) (List γ)) :
    gatherCaches uploads bn store =
      (uploads.flatMap fun p =>
        match loadCache (store (bn p)) with
        | (some sections, some _) => sections.map (tagSection (bn p))
        | _ => [],
       uploads.flatMap fun p =>
        match loadCache (store (bn p)) with
        | (some _, some chunk_index) => chunk_index
        | _ => []) := by
  rw [gatherCaches]
  have hstep : (fun (acc : List (CSec β) × List γ) p =>
      match loadCache (store (bn p)) with
      | (some sections, some chunk_index) =>
        (acc.1 ++ sections.map (tagSection (bn p)), acc.2 ++ chunk_index)
      | _ => acc) =
      (fun acc p =>
        (acc.1 ++ (match loadCache (store (bn p)) with
          | (some sections, some _) => sections.map (tagSection (bn p))
          | _ => []),
         acc.2 ++ (match loadCache (store (bn p)) with
          | (some _, some chunk_index) => chunk_index
          | _ => []))) := by
    funext acc p
    obtain ⟨a, b⟩ := acc
    rcases hl : loadCache (store (bn p)) with ⟨o1, o2⟩
    cases o1 <;> cases o2 <;> simp
  rw [hstep]
  have h := foldl_append_pair
    (fun p =>
      match loadCache (store (bn p)) with
      | (some sections, some _) => sections.map (tagSection (bn p))
      | _ => [])
    (fun p =>
      match loadCache (store (bn p)) with
      | (some _, some chunk_index) => chunk_index
      | _ => [])
    uploads [] []
  simpa using h

/-- C8: For a logged-in user with a non-empty upload list and at least one
cached section, `load_all_cached_pdfs` returns exactly the concatenation, in
upload order, of each cached document's section records — each copied with the
source document's basename added as `file_name` — and the concatenation of the
cached chunk indexes; documents whose cache is missing or corrupt are skipped,
and nothing is re-segmented, re-embedded or re-aggregated (the result is a
pure read of the store). -/
theorem claim_C8 {β γ : Type} (username : String) (uploads : List String)
    (bn : String → String)
    (store : String → DiskCache (List (CSec β)) (List γ))
    (hu : username ≠ "") (hne : uploads ≠ [])
    (hsome : (gatherCaches uploads bn store).1 ≠ []) :
    gatherCaches uploads bn store =
      (uploads.flatMap fun p =>
        match loadCache (store (bn p)) with
        | (some sections, some _) => sections.map (tagSection (bn p))
        | _ => [],
       uploads.flatMap fun p =>
        match loadCache (store (bn p)) with
        | (some _, some chunk_index) => chunk_index
        | _ => []) ∧
    load_all_cached_pdfs username uploads bn store =
      (some (gatherCaches uploads bn store).1,
        some (gatherCaches uploads bn store).2,
        "Loaded cached data for " ++
          toString (gatherCaches uploads bn store).1.length ++
          " sections across " ++ toString uploads.length ++ " PDFs") := by
  refine ⟨gatherCaches_eq uploads bn store, ?_⟩
  rw [load_all_cached_pdfs, if_neg hu, if_neg hne, if_neg]
  rw [List.isEmpty_iff]
  exact hsome

theorem claim_C8_witness :
    (["a.pdf"] : List String) ≠ [] ∧
    load_all_cached_pdfs (β := Unit) (γ := Unit) "u" ["a.pdf"] id
        (fun _ => ⟨FileState.good [⟨(), none⟩], FileState.good [()]⟩) =
      (some [⟨(), some "a.pdf"⟩], some [()],
        "Loaded cached data for 1 sections across 1 PDFs") := by
  have h := claim_C8 (β := Unit) (γ := Unit) "u" ["a.pdf"] id
    (fun _ => ⟨FileState.good [⟨(), none⟩], FileState.good [()]⟩)
    (by decide) (by decide) (by decide)
  refine ⟨by decide, ?_⟩
  rw [h.2]
  rfl

end QueryDoc
